import Mathlib

/-!
# go-iconv: the chunked conversion driver

A shallow embedding of `iconv.go`.  The C library behind the binding
(`iconv_open`, `iconv`, `iconv_close`) is not part of the repository; it is a
parameter of every definition below (`Engine`).  The Go functions `Open`,
`(*Iconv).Close`, `(*Iconv).Conv` and `Conv` are translated statement by
statement, with the engine's hidden state passed explicitly and with every
engine call recorded in a trace.
-/

namespace GoIconv

/-! ## Data model -/

/-- A byte of a Go string or slice, as its numeric value. -/
abbrev Byte := Nat

/-- A `syscall.Errno` value; a Go `error` coming out of cgo is `Option Errno`,
`none` being `nil`. -/
abbrev Errno := Nat

/-- The errno `syscall.E2BIG`: the output buffer has no room left. -/
def E2BIG : Errno := 7

/-- The errno `EILSEQ`: an invalid byte sequence in the input. -/
def EILSEQ : Errno := 84

/-- The errno `EBADF`, reported by `iconv_close` on a bad descriptor. -/
def EBADF : Errno := 9

/-- The errno `EINVAL`, reported by `iconv_open` for an unknown charset. -/
def EINVAL : Errno := 22

/-- The constant `bufSize` of `iconv.go`. -/
def bufSize : Nat := 512

/-- A value stored in a C `size_t` (64 bits). -/
def sizeT (n : Nat) : Nat := n % 2 ^ 64

/-- The struct `Iconv`: the `iconv_t` descriptor returned by `iconv_open`. -/
structure Iconv where
  pointer : Nat
deriving DecidableEq, Repr

/-- What one call of `iconv_custom` leaves behind: the engine's new hidden
state, the values it stored in `*inbytesleft` and `*outbytesleft` (the driver
reads them back as `size_t`), the bytes it wrote from the start of the output
buffer, and the errno cgo reports. -/
structure Reply (σ : Type) where
  world : σ
  inbytes : Nat
  outbytes : Nat
  written : List Byte
  err : Option Errno

/-- The external conversion engine.  `iconv` receives the hidden state, the
descriptor, the memory readable from the input pointer, the remaining count and
the capacity of the output buffer. -/
structure Engine (σ : Type) where
  iconv_open : σ → String → String → σ × Nat × Option Errno
  iconv_close : σ → Nat → σ × Option Errno
  iconv : σ → Nat → List Byte → Nat → Nat → Reply σ

/-- One recorded call of `iconv_custom` in the loop of `(*Iconv).Conv`: the
offset of `inptr` in `inbuf`, the remaining count and output capacity handed
in, the two counts after the call, the content of `outbuf` after the call and
the errno. -/
structure Call where
  off : Nat
  inbytes : Nat
  outbytes : Nat
  inbytesAfter : Nat
  outbytesAfter : Nat
  outbuf : List Byte
  err : Option Errno
deriving DecidableEq, Repr

/-- Bytes of input the call consumed. -/
def Call.consumed (c : Call) : Nat := c.inbytes - c.inbytesAfter

/-- The slice `outbuf[:len(outbuf)-int(outbytes)]` the loop appends after the
call. -/
def Call.produced (c : Call) : List Byte := c.outbuf.take (c.outbytes - c.outbytesAfter)

/-- The call ended with an error other than `E2BIG`. -/
def Call.fatal (c : Call) : Prop := c.err ≠ none ∧ c.err ≠ some E2BIG

instance (c : Call) : Decidable c.fatal := by
  unfold Call.fatal; infer_instance

/-- An engine operation as seen from the one-shot `Conv`. -/
inductive Op where
  | opened (tocode fromcode : String) (err : Option Errno)
  | iconv (cd : Nat) (c : Call)
  | closed (cd : Nat) (err : Option Errno)
deriving DecidableEq, Repr

/-- How a run of the driver ends: it returns `(result, err)`, it stops with a
Go runtime panic (index or slice bound out of range), or the loop is still
running when the fuel is spent. -/
inductive Outcome where
  | returned (result : List Byte) (err : Option Errno)
  | panicked
  | running
deriving DecidableEq, Repr

/-! ## The driver -/

/-- The output buffer after the engine wrote `written` from its first byte. -/
def store (outbuf written : List Byte) : List Byte :=
  (written ++ outbuf.drop written.length).take outbuf.length

/-- The loop `for inbytes > 0 { ... }` of `(*Iconv).Conv`.  The state is the
engine state `w`, the offset `off` of `inptr` in `inbuf`, the count `inbytes`,
the accumulator `buf` and the reusable buffer `outbuf`; one unit of fuel pays
for one engine call.  `iconv_custom` takes `inbuf` by value, so the engine
does not move `inptr`; the loop re-points it itself.  The slice expression
`outbuf[:len(outbuf)-int(outbytes)]` is in range exactly when `outbytes`, read
as an unsigned 64-bit value, is at most `len(outbuf)`; indexing `inbuf` is in
range exactly when the index is below `len(inbuf)`. -/
def convLoop {σ : Type} (E : Engine σ) (cd : Nat) (inbuf : List Byte) :
    Nat → σ → Nat → Nat → List Byte → List Byte → Outcome × σ × List Call
  | fuel, w, off, inbytes, buf, outbuf =>
    if inbytes = 0 then (.returned buf none, w, [])
    else
      match fuel with
      | 0 => (.running, w, [])
      | fuel + 1 =>
        -- outptr := &outbuf[0]
        if outbuf.length = 0 then (.panicked, w, [])
        else
          let outbytes := outbuf.length
          let r := E.iconv w cd (inbuf.drop off) inbytes outbytes
          let inbytes1 := sizeT r.inbytes
          let outbytes1 := sizeT r.outbytes
          let outbuf1 := store outbuf r.written
          let c : Call := ⟨off, inbytes, outbytes, inbytes1, outbytes1, outbuf1, r.err⟩
          -- buf.Write(outbuf[:len(outbuf)-int(outbytes)])
          if outbuf.length < outbytes1 then (.panicked, r.world, [c])
          else
            let buf1 := buf ++ outbuf1.take (outbuf.length - outbytes1)
            if r.err ≠ none ∧ r.err ≠ some E2BIG then (.returned buf1 r.err, r.world, [c])
            else if 0 < inbytes1 then
              -- inptr = &inbuf[inbytes_orig-inbytes]
              let idx := (inbytes + 2 ^ 64 - inbytes1) % 2 ^ 64
              if idx < inbuf.length then
                let rest := convLoop E cd inbuf fuel r.world idx inbytes1 buf1 outbuf1
                (rest.1, rest.2.1, c :: rest.2.2)
              else (.panicked, r.world, [c])
            else
              let rest := convLoop E cd inbuf fuel r.world off inbytes1 buf1 outbuf1
              (rest.1, rest.2.1, c :: rest.2.2)

/-- The method `(*Iconv).Conv` with the size of the output buffer as a
parameter in place of the constant `bufSize`.  The input string is its list of
bytes; `len(inbuf)` is a Go `int`, so `C.size_t(len(inbuf))` is the length
itself.  `make` gives a zeroed buffer, and `inptr` starts at offset 0. -/
def Iconv.ConvSized {σ : Type} (size : Nat) (E : Engine σ) (cd : Iconv) (fuel : Nat) (w : σ)
    (input : List Byte) : Outcome × σ × List Call :=
  if input.length = 0 then (.returned [] none, w, [])
  else convLoop E cd.pointer input fuel w 0 input.length [] (List.replicate size 0)

/-- The method `(*Iconv).Conv`. -/
def Iconv.Conv {σ : Type} (E : Engine σ) (cd : Iconv) (fuel : Nat) (w : σ)
    (input : List Byte) : Outcome × σ × List Call :=
  Iconv.ConvSized bufSize E cd fuel w input

/-- The function `Open`. -/
def Open {σ : Type} (E : Engine σ) (w : σ) (tocode fromcode : String) :
    Except Errno Iconv × σ :=
  let r := E.iconv_open w tocode fromcode
  match r.2.2 with
  | some err => (.error err, r.1)
  | none => (.ok ⟨r.2.1⟩, r.1)

/-- The method `(*Iconv).Close`. -/
def Iconv.Close {σ : Type} (E : Engine σ) (cd : Iconv) (w : σ) : Option Errno × σ :=
  let r := E.iconv_close w cd.pointer
  (r.2, r.1)

/-- The one-shot function `Conv`: `Open`, then `defer h.Close()`, then
`return h.Conv(input)`.  The deferred call runs when `h.Conv` returns and when
it panics; its result is dropped. -/
def Conv {σ : Type} (E : Engine σ) (fuel : Nat) (w : σ) (input : List Byte)
    (tocode fromcode : String) : Outcome × σ × List Op :=
  match Open E w tocode fromcode with
  | (.error err, w1) => (.returned [] (some err), w1, [.opened tocode fromcode (some err)])
  | (.ok h, w1) =>
    let run := h.Conv E fuel w1 input
    let ops := Op.opened tocode fromcode none :: run.2.2.map (Op.iconv h.pointer)
    match run.1 with
    | .running => (.running, run.2.1, ops)
    | out =>
      let cl := h.Close E run.2.1
      (out, cl.2, ops ++ [.closed h.pointer cl.1])

/-! ## Bookkeeping for the proofs -/

/-- The record the loop keeps of the engine call made from a given state. -/
def callOf {σ : Type} (E : Engine σ) (cd : Nat) (inbuf : List Byte) (w : σ) (off inbytes : Nat)
    (outbuf : List Byte) : Call :=
  let r := E.iconv w cd (inbuf.drop off) inbytes outbuf.length
  ⟨off, inbytes, outbuf.length, sizeT r.inbytes, sizeT r.outbytes, store outbuf r.written, r.err⟩

/-- The engine state after the call made from a given loop state. -/
def worldOf {σ : Type} (E : Engine σ) (cd : Nat) (inbuf : List Byte) (w : σ) (off inbytes : Nat)
    (outbuf : List Byte) : σ :=
  (E.iconv w cd (inbuf.drop off) inbytes outbuf.length).world

/-- The value of `inbytes_orig-inbytes` after a call, in `size_t` arithmetic:
the index at which the loop re-points `inptr`. -/
def Call.index (c : Call) : Nat := (c.inbytes + 2 ^ 64 - c.inbytesAfter) % 2 ^ 64

/-- The operation is a call of `iconv_close`. -/
def Op.isClose : Op → Bool
  | .closed _ _ => true
  | _ => false

/-! ## Particular engines -/

/-- Modelled from the spec: the external engine converting a charset to itself.
Each call copies `min(remaining, output capacity)` input bytes unchanged to the
output and reports `E2BIG` when input remains, no error otherwise. -/
def identityEngine : Engine Unit where
  iconv_open := fun w _ _ => (w, 1, none)
  iconv_close := fun w _ => (w, none)
  iconv := fun w _ view inbytes outbytes =>
    let n := min inbytes outbytes
    ⟨w, inbytes - n, outbytes - n, view.take n, if 0 < inbytes - n then some E2BIG else none⟩

/-- The byte-by-byte conversion of `view` under the table `f`: the bytes
written, the input count left and the output room left, stopping with `E2BIG`
at the first byte whose image does not fit. -/
def bytewiseRun (f : Byte → List Byte) : List Byte → Nat → Nat → List Byte × Nat × Nat × Option Errno
  | _, 0, room => ([], 0, room, none)
  | [], n + 1, room => ([], n + 1, room, none)
  | b :: view, n + 1, room =>
    if (f b).length ≤ room then
      let rest := bytewiseRun f view n (room - (f b).length)
      (f b ++ rest.1, rest.2)
    else ([], n + 1, room, some E2BIG)

/-- Modelled from the spec: a stateless external engine that converts byte by
byte with the table `f` and stops with `E2BIG` only when the next output does
not fit. -/
def bytewiseEngine (f : Byte → List Byte) : Engine Unit where
  iconv_open := fun w _ _ => (w, 1, none)
  iconv_close := fun w _ => (w, none)
  iconv := fun w _ view inbytes outbytes =>
    let r := bytewiseRun f view inbytes outbytes
    ⟨w, r.2.1, r.2.2.1, r.1, r.2.2.2⟩

/-- An input of 1025 bytes: 1024 times `a`, then `b`. -/
def longInput : List Byte := List.replicate 1024 97 ++ [98]

/-- An input of 17 bytes: 16 times `a`, then `b`. -/
def shortInput : List Byte := List.replicate 16 97 ++ [98]

/-- An engine that breaks the contract of `iconv(3)`: every call fills the
output buffer with `?`, rejects the input with `EILSEQ` and reports one byte
more produced than the buffer holds, so that `*outbytesleft` wraps around to
`2^64 - 1`. -/
def overrunEngine : Engine Unit where
  iconv_open := fun w _ _ => (w, 1, none)
  iconv_close := fun w _ => (w, none)
  iconv := fun w _ _ inbytes outbytes =>
    ⟨w, inbytes, 2 ^ 64 - 1, List.replicate outbytes 63, some EILSEQ⟩

/-- An engine that consumes one byte per call without error, fills the output
buffer with `?` and reports one byte more produced than the buffer holds, so
that `*outbytesleft` wraps around to `2^64 - 1`. -/
def greedyEngine : Engine Unit where
  iconv_open := fun w _ _ => (w, 1, none)
  iconv_close := fun w _ => (w, none)
  iconv := fun w _ _ inbytes outbytes =>
    ⟨w, inbytes - 1, 2 ^ 64 - 1, List.replicate outbytes 63, none⟩

/-- The identity engine with an `iconv_close` that fails with `EBADF`. -/
def leakyEngine : Engine Unit where
  iconv_open := fun w _ _ => (w, 1, none)
  iconv_close := fun w _ => (w, some EBADF)
  iconv := identityEngine.iconv

/-- An engine that knows no charset: `iconv_open` fails with `EINVAL`. -/
def deafEngine : Engine Unit where
  iconv_open := fun w _ _ => (w, 0, some EINVAL)
  iconv_close := fun w _ => (w, none)
  iconv := identityEngine.iconv

/-- The 7-bit conversion of `view`: bytes below 128 are copied while room is
left, a byte from 128 up is rejected with `EILSEQ`. -/
def asciiRun : List Byte → Nat → Nat → List Byte × Nat × Nat × Option Errno
  | _, 0, room => ([], 0, room, none)
  | [], n + 1, room => ([], n + 1, room, none)
  | b :: view, n + 1, room =>
    if 128 ≤ b then ([], n + 1, room, some EILSEQ)
    else if room = 0 then ([], n + 1, room, some E2BIG)
    else
      let rest := asciiRun view n (room - 1)
      (b :: rest.1, rest.2)

/-- Modelled from the spec: an external engine converting ASCII to ASCII, which
fails with an invalid-sequence error at the first byte that is not ASCII. -/
def asciiEngine : Engine Unit where
  iconv_open := fun w _ _ => (w, 1, none)
  iconv_close := fun w _ => (w, none)
  iconv := fun w _ view inbytes outbytes =>
    let r := asciiRun view inbytes outbytes
    ⟨w, r.2.1, r.2.2.1, r.1, r.2.2.2⟩

/-- An input of 515 bytes: 513 times `a`, the byte 255, then `!`. -/
def brokenInput : List Byte := List.replicate 513 97 ++ [255, 33]

/-- The charset name used in the examples. -/
def utf8 : String := "UTF-8"

/-! ## The loop, one iteration at a time -/

section Loop
variable {σ : Type} (E : Engine σ) (cd : Nat) (inbuf : List Byte)

theorem convLoop_done (fuel : Nat) (w : σ) (off : Nat) (buf outbuf : List Byte) :
    convLoop E cd inbuf fuel w off 0 buf outbuf = (.returned buf none, w, []) := by
  unfold convLoop; simp

theorem convLoop_zero (w : σ) (off inbytes : Nat) (buf outbuf : List Byte) (h : inbytes ≠ 0) :
    convLoop E cd inbuf 0 w off inbytes buf outbuf = (.running, w, []) := by
  unfold convLoop; simp [h]

theorem convLoop_succ (fuel : Nat) (w : σ) (off inbytes : Nat) (buf outbuf : List Byte)
    (h : inbytes ≠ 0) :
    convLoop E cd inbuf (fuel + 1) w off inbytes buf outbuf =
      if outbuf.length = 0 then (.panicked, w, [])
      else
        let r := E.iconv w cd (inbuf.drop off) inbytes outbuf.length
        let c := callOf E cd inbuf w off inbytes outbuf
        if c.outbytes < c.outbytesAfter then (.panicked, r.world, [c])
        else if c.fatal then (.returned (buf ++ c.produced) c.err, r.world, [c])
        else if 0 < c.inbytesAfter then
          if (c.inbytes + 2 ^ 64 - c.inbytesAfter) % 2 ^ 64 < inbuf.length then
            let rest := convLoop E cd inbuf fuel r.world ((c.inbytes + 2 ^ 64 - c.inbytesAfter) % 2 ^ 64)
              c.inbytesAfter (buf ++ c.produced) c.outbuf
            (rest.1, rest.2.1, c :: rest.2.2)
          else (.panicked, r.world, [c])
        else
          let rest := convLoop E cd inbuf fuel r.world off c.inbytesAfter (buf ++ c.produced) c.outbuf
          (rest.1, rest.2.1, c :: rest.2.2) := by
  conv_lhs => unfold convLoop
  simp only [if_neg h]
  rfl

/-- Case analysis of the loop: a property of `(fuel, state, run)` holds of every
run when it holds of each way an iteration can end and is carried over an
iteration that goes on. -/
theorem convLoop_cases
    (P : Nat → σ → Nat → Nat → List Byte → List Byte → Outcome × σ × List Call → Prop)
    (done : ∀ fuel w off buf outbuf, P fuel w off 0 buf outbuf (.returned buf none, w, []))
    (spent : ∀ w off inbytes buf outbuf, inbytes ≠ 0 →
      P 0 w off inbytes buf outbuf (.running, w, []))
    (nobuf : ∀ fuel w off inbytes buf outbuf, inbytes ≠ 0 → outbuf.length = 0 →
      P (fuel + 1) w off inbytes buf outbuf (.panicked, w, []))
    (overrun : ∀ fuel w off inbytes buf outbuf, inbytes ≠ 0 → outbuf.length ≠ 0 →
      (callOf E cd inbuf w off inbytes outbuf).outbytes <
        (callOf E cd inbuf w off inbytes outbuf).outbytesAfter →
      P (fuel + 1) w off inbytes buf outbuf
        (.panicked, worldOf E cd inbuf w off inbytes outbuf, [callOf E cd inbuf w off inbytes outbuf]))
    (fatal : ∀ fuel w off inbytes buf outbuf, inbytes ≠ 0 → outbuf.length ≠ 0 →
      (callOf E cd inbuf w off inbytes outbuf).outbytesAfter ≤
        (callOf E cd inbuf w off inbytes outbuf).outbytes →
      (callOf E cd inbuf w off inbytes outbuf).fatal →
      P (fuel + 1) w off inbytes buf outbuf
        (.returned (buf ++ (callOf E cd inbuf w off inbytes outbuf).produced)
            (callOf E cd inbuf w off inbytes outbuf).err,
          worldOf E cd inbuf w off inbytes outbuf, [callOf E cd inbuf w off inbytes outbuf]))
    (last : ∀ fuel w off inbytes buf outbuf, inbytes ≠ 0 → outbuf.length ≠ 0 →
      (callOf E cd inbuf w off inbytes outbuf).outbytesAfter ≤
        (callOf E cd inbuf w off inbytes outbuf).outbytes →
      ¬ (callOf E cd inbuf w off inbytes outbuf).fatal →
      (callOf E cd inbuf w off inbytes outbuf).inbytesAfter = 0 →
      P (fuel + 1) w off inbytes buf outbuf
        (.returned (buf ++ (callOf E cd inbuf w off inbytes outbuf).produced) none,
          worldOf E cd inbuf w off inbytes outbuf, [callOf E cd inbuf w off inbytes outbuf]))
    (badidx : ∀ fuel w off inbytes buf outbuf, inbytes ≠ 0 → outbuf.length ≠ 0 →
      (callOf E cd inbuf w off inbytes outbuf).outbytesAfter ≤
        (callOf E cd inbuf w off inbytes outbuf).outbytes →
      ¬ (callOf E cd inbuf w off inbytes outbuf).fatal →
      0 < (callOf E cd inbuf w off inbytes outbuf).inbytesAfter →
      inbuf.length ≤ (callOf E cd inbuf w off inbytes outbuf).index →
      P (fuel + 1) w off inbytes buf outbuf
        (.panicked, worldOf E cd inbuf w off inbytes outbuf, [callOf E cd inbuf w off inbytes outbuf]))
    (advance : ∀ fuel w off inbytes buf outbuf (rest : Outcome × σ × List Call),
      inbytes ≠ 0 → outbuf.length ≠ 0 →
      (callOf E cd inbuf w off inbytes outbuf).outbytesAfter ≤
        (callOf E cd inbuf w off inbytes outbuf).outbytes →
      ¬ (callOf E cd inbuf w off inbytes outbuf).fatal →
      0 < (callOf E cd inbuf w off inbytes outbuf).inbytesAfter →
      (callOf E cd inbuf w off inbytes outbuf).index < inbuf.length →
      rest = convLoop E cd inbuf fuel (worldOf E cd inbuf w off inbytes outbuf)
        (callOf E cd inbuf w off inbytes outbuf).index
        (callOf E cd inbuf w off inbytes outbuf).inbytesAfter
        (buf ++ (callOf E cd inbuf w off inbytes outbuf).produced)
        (callOf E cd inbuf w off inbytes outbuf).outbuf →
      P fuel (worldOf E cd inbuf w off inbytes outbuf)
        (callOf E cd inbuf w off inbytes outbuf).index
        (callOf E cd inbuf w off inbytes outbuf).inbytesAfter
        (buf ++ (callOf E cd inbuf w off inbytes outbuf).produced)
        (callOf E cd inbuf w off inbytes outbuf).outbuf rest →
      P (fuel + 1) w off inbytes buf outbuf
        (rest.1, rest.2.1, callOf E cd inbuf w off inbytes outbuf :: rest.2.2))
    (fuel : Nat) : ∀ (w : σ) (off inbytes : Nat) (buf outbuf : List Byte),
      P fuel w off inbytes buf outbuf (convLoop E cd inbuf fuel w off inbytes buf outbuf) := by
  induction fuel with
  | zero =>
    intro w off inbytes buf outbuf
    by_cases h0 : inbytes = 0
    · subst h0; rw [convLoop_done]; exact done _ _ _ _ _
    · rw [convLoop_zero _ _ _ _ _ _ _ _ h0]; exact spent _ _ _ _ _ h0
  | succ fuel ih =>
    intro w off inbytes buf outbuf
    by_cases h0 : inbytes = 0
    · subst h0; rw [convLoop_done]; exact done _ _ _ _ _
    rw [convLoop_succ _ _ _ _ _ _ _ _ _ h0]
    by_cases h1 : outbuf.length = 0
    · rw [if_pos h1]; exact nobuf _ _ _ _ _ _ h0 h1
    rw [if_neg h1]
    simp only
    by_cases h2 : (callOf E cd inbuf w off inbytes outbuf).outbytes <
        (callOf E cd inbuf w off inbytes outbuf).outbytesAfter
    · rw [if_pos h2]; exact overrun _ _ _ _ _ _ h0 h1 h2
    rw [if_neg h2]
    by_cases h3 : (callOf E cd inbuf w off inbytes outbuf).fatal
    · rw [if_pos h3]; exact fatal _ _ _ _ _ _ h0 h1 (Nat.le_of_not_lt h2) h3
    rw [if_neg h3]
    by_cases h4 : 0 < (callOf E cd inbuf w off inbytes outbuf).inbytesAfter
    · rw [if_pos h4]
      by_cases h5 : ((callOf E cd inbuf w off inbytes outbuf).inbytes + 2 ^ 64 -
          (callOf E cd inbuf w off inbytes outbuf).inbytesAfter) % 2 ^ 64 < inbuf.length
      · rw [if_pos h5]
        exact advance _ _ _ _ _ _ _ h0 h1 (Nat.le_of_not_lt h2) h3 h4 h5 rfl (ih _ _ _ _ _)
      · rw [if_neg h5]
        exact badidx _ _ _ _ _ _ h0 h1 (Nat.le_of_not_lt h2) h3 h4 (Nat.le_of_not_lt h5)
    · rw [if_neg h4]
      have h4z : (callOf E cd inbuf w off inbytes outbuf).inbytesAfter = 0 := by omega
      rw [h4z, convLoop_done]
      exact last _ _ _ _ _ _ h0 h1 (Nat.le_of_not_lt h2) h3 h4z


/-! ## Properties of the loop -/

theorem sizeT_le (n : Nat) : sizeT n ≤ n := Nat.mod_le _ _

theorem index_le (c : Call) (h : c.inbytesAfter ≤ c.inbytes) :
    c.index ≤ c.inbytes - c.inbytesAfter := by
  unfold Call.index
  have e : c.inbytes + 2 ^ 64 - c.inbytesAfter = c.inbytes - c.inbytesAfter + 2 ^ 64 := by omega
  rw [e, Nat.add_mod_right]
  exact Nat.mod_le _ _

theorem store_length (outbuf written : List Byte) : (store outbuf written).length = outbuf.length := by
  unfold store
  simp only [List.length_take, List.length_append, List.length_drop]
  omega

theorem singleton_split {α : Type} {a c : α} {pre post : List α} (h : [a] = pre ++ c :: post) :
    pre = [] ∧ c = a ∧ post = [] := by
  cases pre with
  | nil => simp at h; exact ⟨rfl, h.1.symm, h.2⟩
  | cons b pre => simp at h

/-- What the loop returns is the accumulator it started from followed by the
chunks of its calls, in call order. -/
theorem convLoop_result (fuel : Nat) (w : σ) (off inbytes : Nat) (buf outbuf : List Byte) :
    ∀ r e, (convLoop E cd inbuf fuel w off inbytes buf outbuf).1 = .returned r e →
      r = buf ++ ((convLoop E cd inbuf fuel w off inbytes buf outbuf).2.2.map Call.produced).flatten := by
  refine convLoop_cases E cd inbuf
    (fun _ _ _ _ buf _ run => ∀ r e, run.1 = .returned r e →
      r = buf ++ (run.2.2.map Call.produced).flatten)
    ?_ ?_ ?_ ?_ ?_ ?_ ?_ ?_ fuel w off inbytes buf outbuf
  · intro _ _ _ buf _ r e h
    simp at h ⊢; exact h.1.symm
  · intro _ _ _ _ _ _ r e h; simp at h
  · intro _ _ _ _ _ _ _ _ r e h; simp at h
  · intro _ _ _ _ _ _ _ _ _ r e h; simp at h
  · intro _ _ _ _ _ _ _ _ _ _ r e h
    simp at h ⊢; exact h.1.symm
  · intro _ _ _ _ _ _ _ _ _ _ _ r e h
    simp at h ⊢; exact h.1.symm
  · intro _ _ _ _ _ _ _ _ _ _ _ _ r e h; simp at h
  · intro _ _ _ _ _ _ rest _ _ _ _ _ _ _ ih r e h
    rw [ih r e h]; simp

/-- A call that ends with an error other than `E2BIG` is the last call of the
run; the run then returns that error with everything produced so far, unless
the call stored more in `*outbytesleft` than the buffer holds, in which case
the slice expression panics. -/
theorem convLoop_fatal (fuel : Nat) (w : σ) (off inbytes : Nat) (buf outbuf : List Byte) :
    ∀ pre c post, (convLoop E cd inbuf fuel w off inbytes buf outbuf).2.2 = pre ++ c :: post →
      c.fatal → post = [] ∧
        (c.outbytesAfter ≤ c.outbytes →
          (convLoop E cd inbuf fuel w off inbytes buf outbuf).1 =
            .returned (buf ++ ((pre ++ [c]).map Call.produced).flatten) c.err) ∧
        (c.outbytes < c.outbytesAfter →
          (convLoop E cd inbuf fuel w off inbytes buf outbuf).1 = .panicked) := by
  refine convLoop_cases E cd inbuf
    (fun _ _ _ _ buf _ run => ∀ pre c post, run.2.2 = pre ++ c :: post → c.fatal → post = [] ∧
      (c.outbytesAfter ≤ c.outbytes →
        run.1 = .returned (buf ++ ((pre ++ [c]).map Call.produced).flatten) c.err) ∧
      (c.outbytes < c.outbytesAfter → run.1 = .panicked))
    ?_ ?_ ?_ ?_ ?_ ?_ ?_ ?_ fuel w off inbytes buf outbuf
  · intro _ _ _ _ _ pre c post h; simp at h
  · intro _ _ _ _ _ _ pre c post h; simp at h
  · intro _ _ _ _ _ _ _ _ pre c post h; simp at h
  · intro _ _ _ _ _ _ _ _ h2 pre c post h _
    obtain ⟨hp, hc, hq⟩ := singleton_split h
    subst hp hc hq
    exact ⟨rfl, fun h3 => absurd h2 (Nat.not_lt.mpr h3), fun _ => rfl⟩
  · intro _ _ _ _ _ _ _ _ h2 _ pre c post h _
    obtain ⟨hp, hc, hq⟩ := singleton_split h
    subst hp hc hq
    exact ⟨rfl, fun _ => by simp, fun h3 => absurd h3 (Nat.not_lt.mpr h2)⟩
  · intro _ _ _ _ _ _ _ _ _ h3 _ pre c post h hf
    obtain ⟨hp, hc, hq⟩ := singleton_split h
    subst hp hc hq
    exact absurd hf h3
  · intro _ _ _ _ _ _ _ _ _ h3 _ _ pre c post h hf
    obtain ⟨hp, hc, hq⟩ := singleton_split h
    subst hp hc hq
    exact absurd hf h3
  · intro _ _ _ _ _ _ rest _ _ _ h3 _ _ _ ih pre c post h hf
    cases pre with
    | nil =>
      simp at h
      rw [← h.1] at hf
      exact absurd hf h3
    | cons a pre =>
      simp only [List.cons_append, List.cons.injEq] at h
      obtain ⟨ha, hrest⟩ := h
      obtain ⟨i1, i2, i3⟩ := ih pre c post hrest hf
      refine ⟨i1, fun hle => ?_, i3⟩
      rw [i2 hle, ← ha]; simp

/-- With an engine that never stores more in `*inbytesleft` than it was given,
a run that returns without error has consumed the whole remaining count. -/
theorem convLoop_consumed (hE : ∀ w cd view n cap, (E.iconv w cd view n cap).inbytes ≤ n)
    (fuel : Nat) (w : σ) (off inbytes : Nat) (buf outbuf : List Byte) :
    ∀ r, (convLoop E cd inbuf fuel w off inbytes buf outbuf).1 = .returned r none →
      ((convLoop E cd inbuf fuel w off inbytes buf outbuf).2.2.map Call.consumed).sum = inbytes := by
  refine convLoop_cases E cd inbuf
    (fun _ _ _ inbytes _ _ run => ∀ r, run.1 = .returned r none →
      (run.2.2.map Call.consumed).sum = inbytes)
    ?_ ?_ ?_ ?_ ?_ ?_ ?_ ?_ fuel w off inbytes buf outbuf
  · intro _ _ _ _ _ r _; simp
  · intro _ _ _ _ _ _ r h; simp at h
  · intro _ _ _ _ _ _ _ _ r h; simp at h
  · intro _ _ _ _ _ _ _ _ _ r h; simp at h
  · intro _ _ _ _ _ _ _ _ _ hf r h
    simp at h
    exact absurd h.2 hf.1
  · intro _ w off inbytes _ outbuf _ _ _ _ hz r _
    simp only [List.map_cons, List.map_nil, List.sum_cons, List.sum_nil, Call.consumed, hz]
    simp [callOf]
  · intro _ _ _ _ _ _ _ _ _ _ _ _ r h; simp at h
  · intro _ w off inbytes _ outbuf rest _ _ _ _ _ _ _ ih r h
    simp only [List.map_cons, List.sum_cons, ih r h, Call.consumed]
    have h1 : (callOf E cd inbuf w off inbytes outbuf).inbytesAfter ≤ inbytes :=
      le_trans (sizeT_le _) (hE _ _ _ _ _)
    have h2 : (callOf E cd inbuf w off inbytes outbuf).inbytes = inbytes := rfl
    omega

/-- With an engine that keeps `*inbytesleft` and `*outbytesleft` within what it
was given, no iteration panics and every call stays inside both buffers. -/
theorem convLoop_bounds (hin : ∀ w cd view n cap, (E.iconv w cd view n cap).inbytes ≤ n)
    (hout : ∀ w cd view n cap, (E.iconv w cd view n cap).outbytes ≤ cap)
    (fuel : Nat) (w : σ) (off inbytes : Nat) (buf outbuf : List Byte) :
    outbuf.length ≠ 0 → off + inbytes ≤ inbuf.length →
      (convLoop E cd inbuf fuel w off inbytes buf outbuf).1 ≠ .panicked ∧
      ∀ c ∈ (convLoop E cd inbuf fuel w off inbytes buf outbuf).2.2,
        c.off + c.inbytes ≤ inbuf.length ∧ c.outbytesAfter ≤ c.outbytes ∧
        c.outbytes - c.outbytesAfter ≤ c.outbuf.length ∧
        (0 < c.inbytesAfter → c.index < inbuf.length) := by
  have key : ∀ (w : σ) (off inbytes : Nat) (outbuf : List Byte),
      off + inbytes ≤ inbuf.length →
      (callOf E cd inbuf w off inbytes outbuf).off +
          (callOf E cd inbuf w off inbytes outbuf).inbytes ≤ inbuf.length ∧
        (callOf E cd inbuf w off inbytes outbuf).outbytesAfter ≤
          (callOf E cd inbuf w off inbytes outbuf).outbytes ∧
        (callOf E cd inbuf w off inbytes outbuf).outbytes -
            (callOf E cd inbuf w off inbytes outbuf).outbytesAfter ≤
          (callOf E cd inbuf w off inbytes outbuf).outbuf.length ∧
        (0 < (callOf E cd inbuf w off inbytes outbuf).inbytesAfter →
          (callOf E cd inbuf w off inbytes outbuf).index < inbuf.length) ∧
        (callOf E cd inbuf w off inbytes outbuf).index +
          (callOf E cd inbuf w off inbytes outbuf).inbytesAfter ≤ inbuf.length := by
    intro w off inbytes outbuf hreg
    have h1 : (callOf E cd inbuf w off inbytes outbuf).inbytesAfter ≤ inbytes :=
      le_trans (sizeT_le _) (hin _ _ _ _ _)
    have h2 : (callOf E cd inbuf w off inbytes outbuf).outbytesAfter ≤ outbuf.length :=
      le_trans (sizeT_le _) (hout _ _ _ _ _)
    have h3 := index_le (callOf E cd inbuf w off inbytes outbuf) h1
    have h4 : (callOf E cd inbuf w off inbytes outbuf).outbuf.length = outbuf.length :=
      store_length _ _
    have h5 : (callOf E cd inbuf w off inbytes outbuf).inbytes = inbytes := rfl
    have h6 : (callOf E cd inbuf w off inbytes outbuf).off = off := rfl
    have h7 : (callOf E cd inbuf w off inbytes outbuf).outbytes = outbuf.length := rfl
    refine ⟨by omega, by omega, by omega, fun _ => by omega, by omega⟩
  refine convLoop_cases E cd inbuf
    (fun _ _ off inbytes _ outbuf run => outbuf.length ≠ 0 → off + inbytes ≤ inbuf.length →
      run.1 ≠ .panicked ∧ ∀ c ∈ run.2.2,
        c.off + c.inbytes ≤ inbuf.length ∧ c.outbytesAfter ≤ c.outbytes ∧
        c.outbytes - c.outbytesAfter ≤ c.outbuf.length ∧
        (0 < c.inbytesAfter → c.index < inbuf.length))
    ?_ ?_ ?_ ?_ ?_ ?_ ?_ ?_ fuel w off inbytes buf outbuf
  · intro _ _ _ _ _ _ _; simp
  · intro _ _ _ _ _ _ _ _; simp
  · intro _ _ _ _ _ _ _ h1 h2 _; exact absurd h1 h2
  · intro _ w off inbytes _ outbuf _ _ h2 _ hreg
    have := (key w off inbytes outbuf hreg).2.1
    omega
  · intro _ w off inbytes _ outbuf _ _ _ _ _ hreg
    obtain ⟨k1, k2, k3, k4, _⟩ := key w off inbytes outbuf hreg
    refine ⟨by simp, fun c hc => ?_⟩
    rw [List.mem_singleton] at hc; subst hc
    exact ⟨k1, k2, k3, k4⟩
  · intro _ w off inbytes _ outbuf _ _ _ _ _ _ hreg
    obtain ⟨k1, k2, k3, k4, _⟩ := key w off inbytes outbuf hreg
    refine ⟨by simp, fun c hc => ?_⟩
    rw [List.mem_singleton] at hc; subst hc
    exact ⟨k1, k2, k3, k4⟩
  · intro _ w off inbytes _ outbuf _ _ _ _ h4 h5 _ hreg
    have := (key w off inbytes outbuf hreg).2.2.2.1 h4
    omega
  · intro _ w off inbytes _ outbuf rest _ h1 _ _ _ _ _ ih _ hreg
    obtain ⟨k1, k2, k3, k4, k5⟩ := key w off inbytes outbuf hreg
    have hlen : (callOf E cd inbuf w off inbytes outbuf).outbuf.length ≠ 0 := by
      have : (callOf E cd inbuf w off inbytes outbuf).outbuf.length = outbuf.length :=
        store_length _ _
      omega
    obtain ⟨i1, i2⟩ := ih hlen k5
    refine ⟨i1, fun c hc => ?_⟩
    rw [List.mem_cons] at hc
    rcases hc with hc | hc
    · subst hc; exact ⟨k1, k2, k3, k4⟩
    · exact i2 c hc

/-- With an engine that consumes at least one byte in every call that ends
without error or with `E2BIG`, a run of the loop over a buffer of `size` bytes
that starts with at least as much fuel as input stops: it makes at most one
call per remaining byte and is never cut short by the fuel; it returns unless
some call stored more in `*outbytesleft` than the buffer holds. -/
theorem convLoop_terminates (size : Nat) (hsize : size ≠ 0)
    (hprog : ∀ w cd view n, 0 < n →
      ((E.iconv w cd view n size).err = none ∨ (E.iconv w cd view n size).err = some E2BIG) →
      (E.iconv w cd view n size).inbytes < n)
    (fuel : Nat) (w : σ) (off inbytes : Nat) (buf outbuf : List Byte) :
    outbuf.length = size → inbytes ≤ fuel → inbytes ≤ inbuf.length →
      (convLoop E cd inbuf fuel w off inbytes buf outbuf).1 ≠ .running ∧
      (convLoop E cd inbuf fuel w off inbytes buf outbuf).2.2.length ≤ inbytes ∧
      ((∀ c ∈ (convLoop E cd inbuf fuel w off inbytes buf outbuf).2.2,
          c.outbytesAfter ≤ c.outbytes) →
        ∃ r e, (convLoop E cd inbuf fuel w off inbytes buf outbuf).1 = .returned r e) := by
  have key : ∀ (w : σ) (off inbytes : Nat) (outbuf : List Byte), inbytes ≠ 0 →
      outbuf.length = size → ¬ (callOf E cd inbuf w off inbytes outbuf).fatal →
      (callOf E cd inbuf w off inbytes outbuf).inbytesAfter < inbytes := by
    intro w off inbytes outbuf h0 hs hf
    have h := hprog w cd (inbuf.drop off) inbytes (by omega)
    rw [← hs] at h
    have herr : (E.iconv w cd (inbuf.drop off) inbytes outbuf.length).err = none ∨
        (E.iconv w cd (inbuf.drop off) inbytes outbuf.length).err = some E2BIG := by
      by_contra hc
      push_neg at hc
      exact hf hc
    exact lt_of_le_of_lt (sizeT_le _) (h herr)
  refine convLoop_cases E cd inbuf
    (fun fuel _ _ inbytes _ outbuf run => outbuf.length = size → inbytes ≤ fuel →
      inbytes ≤ inbuf.length →
      run.1 ≠ .running ∧ run.2.2.length ≤ inbytes ∧
      ((∀ c ∈ run.2.2, c.outbytesAfter ≤ c.outbytes) → ∃ r e, run.1 = .returned r e))
    ?_ ?_ ?_ ?_ ?_ ?_ ?_ ?_ fuel w off inbytes buf outbuf
  · intro _ _ _ buf _ _ _ _
    exact ⟨by simp, by simp, fun _ => ⟨buf, none, rfl⟩⟩
  · intro _ _ _ _ _ h0 _ hf _; omega
  · intro _ _ _ _ _ _ _ h1 hs _ _; omega
  · intro _ _ _ _ _ _ h0 _ h2 _ _ _
    refine ⟨by simp, by simp; omega, fun hall => ?_⟩
    have := hall _ (List.mem_singleton.mpr rfl)
    omega
  · intro _ _ _ _ _ _ h0 _ _ _ _ _ _
    exact ⟨by simp, by simp; omega, fun _ => ⟨_, _, rfl⟩⟩
  · intro _ _ _ _ _ _ h0 _ _ _ _ _ _ _
    exact ⟨by simp, by simp; omega, fun _ => ⟨_, _, rfl⟩⟩
  · intro _ w off inbytes _ outbuf h0 _ _ h3 h4 h5 hs _ hlen
    have k := key w off inbytes outbuf h0 hs h3
    have := index_le (callOf E cd inbuf w off inbytes outbuf) (le_of_lt k)
    have h6 : (callOf E cd inbuf w off inbytes outbuf).inbytes = inbytes := rfl
    omega
  · intro fuel w off inbytes _ outbuf rest h0 _ _ h3 _ _ _ ih hs hfuel hlen
    have k := key w off inbytes outbuf h0 hs h3
    have hs1 : (callOf E cd inbuf w off inbytes outbuf).outbuf.length = size := by
      rw [← hs]; exact store_length _ _
    obtain ⟨i1, i2, i3⟩ := ih hs1 (by omega) (by omega)
    refine ⟨i1, by simp only [List.length_cons]; omega, fun hall => ?_⟩
    exact i3 (fun c hc => hall c (List.mem_cons_of_mem _ hc))

/-- Fuel beyond what a run needs changes nothing: a run that ended keeps its
outcome, its final engine state and its calls under any larger amount. -/
theorem convLoop_more_fuel (fuel : Nat) (w : σ) (off inbytes : Nat) (buf outbuf : List Byte) :
    (convLoop E cd inbuf fuel w off inbytes buf outbuf).1 ≠ .running →
      ∀ extra, convLoop E cd inbuf (fuel + extra) w off inbytes buf outbuf =
        convLoop E cd inbuf fuel w off inbytes buf outbuf := by
  have e : ∀ fuel extra : Nat, fuel + 1 + extra = fuel + extra + 1 := fun _ _ => by omega
  refine convLoop_cases E cd inbuf
    (fun fuel w off inbytes buf outbuf run => run.1 ≠ .running →
      ∀ extra, convLoop E cd inbuf (fuel + extra) w off inbytes buf outbuf = run)
    ?_ ?_ ?_ ?_ ?_ ?_ ?_ ?_ fuel w off inbytes buf outbuf
  · intro _ _ _ _ _ _ _
    rw [convLoop_done]
  · intro _ _ _ _ _ _ h; simp at h
  · intro _ _ _ _ _ _ h0 h1 _ extra
    rw [e, convLoop_succ _ _ _ _ _ _ _ _ _ h0, if_pos h1]
  · intro _ _ _ _ _ _ h0 h1 h2 _ extra
    rw [e, convLoop_succ _ _ _ _ _ _ _ _ _ h0, if_neg h1]
    simp only [if_pos h2]
    rfl
  · intro _ _ _ _ _ _ h0 h1 h2 h3 _ extra
    rw [e, convLoop_succ _ _ _ _ _ _ _ _ _ h0, if_neg h1]
    simp only [if_neg (Nat.not_lt.mpr h2), if_pos h3]
    rfl
  · intro _ _ _ _ _ _ h0 h1 h2 h3 h4 _ extra
    rw [e, convLoop_succ _ _ _ _ _ _ _ _ _ h0, if_neg h1]
    simp only [if_neg (Nat.not_lt.mpr h2), if_neg h3, h4, lt_irrefl, if_false, convLoop_done]
    rfl
  · intro _ _ _ _ _ _ h0 h1 h2 h3 h4 h5 _ extra
    unfold Call.index at h5
    rw [e, convLoop_succ _ _ _ _ _ _ _ _ _ h0, if_neg h1]
    simp only [if_neg (Nat.not_lt.mpr h2), if_neg h3, if_pos h4, if_neg (Nat.not_lt.mpr h5)]
    rfl
  · intro _ _ _ _ _ _ rest h0 h1 h2 h3 h4 h5 hrest ih hrun extra
    unfold Call.index at h5 ih
    unfold worldOf at ih
    rw [e, convLoop_succ _ _ _ _ _ _ _ _ _ h0, if_neg h1]
    simp only [if_neg (Nat.not_lt.mpr h2), if_neg h3, if_pos h4, if_pos h5]
    rw [ih hrun extra]

/-- The same for the whole method: once a run of `(*Iconv).Conv` has ended,
more fuel gives the same run. -/
theorem ConvSized_more_fuel (size : Nat) (cd : Iconv) (fuel : Nat) (w : σ) (input : List Byte)
    (hrun : (Iconv.ConvSized size E cd fuel w input).1 ≠ .running) (extra : Nat) :
    Iconv.ConvSized size E cd (fuel + extra) w input = Iconv.ConvSized size E cd fuel w input := by
  unfold Iconv.ConvSized at hrun ⊢
  by_cases h0 : input.length = 0
  · rw [if_pos h0, if_pos h0]
  · rw [if_neg h0] at hrun ⊢
    rw [if_neg h0]
    exact convLoop_more_fuel E cd.pointer input fuel w 0 input.length [] _ hrun extra

end Loop

/-! ## The claims -/

set_option maxRecDepth 100000

section Claims
variable {σ : Type}

/-- C1 (code defect): on the 1025-byte input `longInput` with the identity
engine, `(*Iconv).Conv` (with fuel for three calls or more) makes three engine
calls, listed as (offset, remaining count, bytes consumed); the first two
consume 512 bytes each, yet the third call is handed offset 512 and not the
offset 1024 of the unconsumed suffix: the index `inbytes_orig-inbytes` counts
only the bytes of the latest call. -/
theorem Conv_third_call_offset (extra : Nat) :
    (Iconv.Conv identityEngine ⟨1⟩ (3 + extra) () longInput).2.2.map
        (fun c => (c.off, c.inbytes, c.consumed)) =
      [(0, 1025, 512), (512, 513, 512), (512, 1, 1)] := by
  unfold Iconv.Conv
  rw [ConvSized_more_fuel identityEngine bufSize ⟨1⟩ 3 () longInput (by decide) extra]
  decide

/-- C2 (code defect): with the identity engine, `(*Iconv).Conv` on the
1025-byte input `longInput` (1024 times `a`, then `b`), with fuel for three
calls or more, returns 1025 times `a` with a nil error, which is not the
input. -/
theorem Conv_identity_long_input (extra : Nat) :
    (Iconv.Conv identityEngine ⟨1⟩ (3 + extra) () longInput).1 =
        .returned (List.replicate 1025 97) none ∧
      List.replicate 1025 97 ≠ longInput := by
  unfold Iconv.Conv
  rw [ConvSized_more_fuel identityEngine bufSize ⟨1⟩ 3 () longInput (by decide) extra]
  decide

/-- C3 (code defect): with the byte-by-byte identity engine and the 17-byte
input `shortInput` (16 times `a`, then `b`), the driver with fuel for three
calls or more returns 17 times `a` with a buffer of 8 bytes and the input
itself with a buffer of 512 bytes: the two results differ. -/
theorem ConvSized_depends_on_size (extra : Nat) :
    (Iconv.ConvSized 8 (bytewiseEngine fun b => [b]) ⟨1⟩ (3 + extra) () shortInput).1 =
        .returned (List.replicate 17 97) none ∧
      (Iconv.ConvSized 512 (bytewiseEngine fun b => [b]) ⟨1⟩ (3 + extra) () shortInput).1 =
        .returned shortInput none ∧
      (Iconv.ConvSized 8 (bytewiseEngine fun b => [b]) ⟨1⟩ (3 + extra) () shortInput).1 ≠
        (Iconv.ConvSized 512 (bytewiseEngine fun b => [b]) ⟨1⟩ (3 + extra) () shortInput).1 := by
  rw [ConvSized_more_fuel (bytewiseEngine fun b => [b]) 8 ⟨1⟩ 3 () shortInput (by decide) extra,
    ConvSized_more_fuel (bytewiseEngine fun b => [b]) 512 ⟨1⟩ 3 () shortInput (by decide) extra]
  decide

/-- C4 (as stated, refuted): with `overrunEngine` and the one-byte input `h`,
the only engine call reports `EILSEQ`, an error other than `E2BIG`, and
`(*Iconv).Conv` does not return that error: the call reports 513 bytes
produced into the 512-byte buffer (it leaves `2^64 - 1` in `outbytes`), and the
slice `outbuf[:len(outbuf)-int(outbytes)]` panics. -/
theorem Conv_fatal_error_counterexample :
    (∃ c, (Iconv.Conv overrunEngine ⟨1⟩ 1 () [104]).2.2 = [c] ∧ c.fatal ∧
        c.err = some EILSEQ ∧ c.outbytes = 512 ∧ c.outbytesAfter = 2 ^ 64 - 1) ∧
      (Iconv.Conv overrunEngine ⟨1⟩ 1 () [104]).1 = .panicked ∧
      ¬ ∃ r, (Iconv.Conv overrunEngine ⟨1⟩ 1 () [104]).1 = .returned r (some EILSEQ) := by
  refine ⟨⟨_, rfl, by decide, rfl, rfl, rfl⟩, by decide, ?_⟩
  rintro ⟨r, h⟩
  have hp : (Iconv.Conv overrunEngine ⟨1⟩ 1 () [104]).1 = .panicked := by decide
  rw [hp] at h
  exact Outcome.noConfusion h

/-- C4 (amended): for every input and every engine, if some engine call of
`(*Iconv).Conv` reports an error other than `E2BIG` and produces no more than
the output capacity (it leaves in `outbytes` at most the capacity it was
given), then that call is the last one and `Conv` returns that same error
together with the concatenation, in call order, of the bytes produced by every
call made, the failing one included. -/
theorem Conv_fatal_error (E : Engine σ) (cd : Iconv) (fuel : Nat) (w : σ) (input : List Byte)
    (pre : List Call) (c : Call) (post : List Call)
    (hcall : (Iconv.Conv E cd fuel w input).2.2 = pre ++ c :: post)
    (hfatal : c.fatal) (hroom : c.outbytesAfter ≤ c.outbytes) :
    post = [] ∧
      (Iconv.Conv E cd fuel w input).1 =
        .returned ((pre ++ [c]).map Call.produced).flatten c.err := by
  unfold Iconv.Conv Iconv.ConvSized at hcall ⊢
  by_cases h0 : input.length = 0
  · rw [if_pos h0] at hcall
    simp at hcall
  · rw [if_neg h0] at hcall ⊢
    obtain ⟨h1, h2, _⟩ := convLoop_fatal E cd.pointer input fuel w 0 input.length []
      (List.replicate bufSize 0) pre c post hcall hfatal
    refine ⟨h1, ?_⟩
    rw [h2 hroom]; simp

/-- On `brokenInput` (513 times `a`, the byte 255, then `!`) the ASCII engine
needs two calls; the second one fails with `EILSEQ` and `Conv` returns the 513
bytes converted so far with that error. -/
theorem Conv_fatal_error_witness :
    (Iconv.Conv asciiEngine ⟨1⟩ 5 () brokenInput).2.2.length = 2 ∧
      (Iconv.Conv asciiEngine ⟨1⟩ 5 () brokenInput).1 =
        .returned (List.replicate 513 97) (some EILSEQ) := by
  have h := Conv_fatal_error asciiEngine ⟨1⟩ 5 () brokenInput
    [⟨0, 515, 512, 3, 0, List.replicate 512 97, some E2BIG⟩]
    ⟨512, 3, 512, 2, 511, List.replicate 512 97, some EILSEQ⟩ []
    (by decide) (by decide) (by decide)
  refine ⟨by decide, ?_⟩
  rw [h.2]
  decide

/-- C5 (as stated, refuted): with `leakyEngine`, `Open` succeeds, the handle's
`Conv` returns the converted bytes with a nil error and `Close` reports
`EBADF`, yet the one-shot `Conv` returns the converted bytes with a nil error:
the release error does not reach the caller. -/
theorem Conv_release_error_counterexample :
    Open leakyEngine () utf8 utf8 = (.ok ⟨1⟩, ()) ∧
      (Iconv.Conv leakyEngine ⟨1⟩ 1 () [104, 105]).1 = .returned [104, 105] none ∧
      (Iconv.Close leakyEngine ⟨1⟩ ()).1 = some EBADF ∧
      (Conv leakyEngine 1 () [104, 105] utf8 utf8).1 = .returned [104, 105] none ∧
      (Conv leakyEngine 1 () [104, 105] utf8 utf8).2.2.getLast? = some (.closed 1 (some EBADF)) := by
  refine ⟨rfl, by decide, rfl, by decide, by decide⟩

/-- C5 (amended): in the one-shot `Conv`, when `Open` succeeds and the handle's
`Conv` returns a result and an error (nil or not), the one-shot `Conv` returns
exactly that result and that error, whatever `Close` reports: a release error
is dropped, and a conversion error is never overwritten by it. -/
theorem Conv_returns_conversion_result (E : Engine σ) (fuel : Nat) (w : σ) (input : List Byte)
    (tocode fromcode : String) (h : Iconv) (w1 : σ) (r : List Byte) (e : Option Errno)
    (hopen : Open E w tocode fromcode = (.ok h, w1))
    (hconv : (h.Conv E fuel w1 input).1 = .returned r e) :
    (Conv E fuel w input tocode fromcode).1 = .returned r e := by
  unfold Conv
  rw [hopen]
  simp only [hconv]

/-- With `asciiEngine` and an `iconv_close` that would succeed or fail alike,
the one-shot `Conv` hands back the `EILSEQ` of the conversion and the bytes
converted before it. -/
theorem Conv_returns_conversion_result_witness :
    Open asciiEngine () utf8 utf8 = (.ok ⟨1⟩, ()) ∧
      (Iconv.Conv asciiEngine ⟨1⟩ 1 () [104, 255]).1 = .returned [104] (some EILSEQ) ∧
      (Conv asciiEngine 1 () [104, 255] utf8 utf8).1 = .returned [104] (some EILSEQ) :=
  ⟨rfl, by decide,
    Conv_returns_conversion_result asciiEngine 1 () [104, 255] utf8 utf8 ⟨1⟩ () [104]
      (some EILSEQ) rfl (by decide)⟩

/-- C6: for every engine, handle, engine state and amount of fuel,
`(*Iconv).Conv` on the empty input returns the empty string and a nil error,
makes no engine call and leaves the engine state unchanged. -/
theorem Conv_empty_input (E : Engine σ) (cd : Iconv) (fuel : Nat) (w : σ) :
    Iconv.Conv E cd fuel w [] = (.returned [] none, w, []) := by
  simp [Iconv.Conv, Iconv.ConvSized]

/-- C7: for every input and every engine that never leaves in `inbytes` more
than the remaining count it was given, if `(*Iconv).Conv` returns a nil error
then the bytes consumed over all engine calls made add up to `len(input)`. -/
theorem Conv_consumes_whole_input (E : Engine σ) (cd : Iconv) (fuel : Nat) (w : σ)
    (input : List Byte) (r : List Byte)
    (hE : ∀ w cd view n cap, (E.iconv w cd view n cap).inbytes ≤ n)
    (hret : (Iconv.Conv E cd fuel w input).1 = .returned r none) :
    ((Iconv.Conv E cd fuel w input).2.2.map Call.consumed).sum = input.length := by
  unfold Iconv.Conv Iconv.ConvSized at hret ⊢
  by_cases h0 : input.length = 0
  · rw [if_pos h0]; simp [h0]
  · rw [if_neg h0] at hret ⊢
    exact convLoop_consumed E cd.pointer input hE fuel w 0 input.length [] _ r hret

/-- The identity engine on `longInput`: three calls, 1025 bytes consumed. -/
theorem Conv_consumes_whole_input_witness :
    (∀ w cd view n cap, (identityEngine.iconv w cd view n cap).inbytes ≤ n) ∧
      ((Iconv.Conv identityEngine ⟨1⟩ 3 () longInput).2.2.map Call.consumed).sum = 1025 := by
  have hE : ∀ w cd view n cap, (identityEngine.iconv w cd view n cap).inbytes ≤ n := by
    intro w cd view n cap
    simp [identityEngine]
  exact ⟨hE, Conv_consumes_whole_input identityEngine ⟨1⟩ 3 () longInput
    (List.replicate 1025 97) hE (by decide)⟩

/-- C8: in the one-shot `Conv`, if `Open` fails then `Conv` returns the empty
string with the open error and the only engine operation is the failed
`iconv_open` (no conversion call, no `iconv_close`); if `Open` succeeds and the
handle's `Conv` ends (it returns, with or without error, or panics), then the
engine operations are the `iconv_open`, the conversion calls on the handle, and
one `iconv_close` on that handle as the last operation: `Close` is called
exactly once, after the last conversion call. -/
theorem Conv_closes_once (E : Engine σ) (fuel : Nat) (w : σ) (input : List Byte)
    (tocode fromcode : String) :
    (∀ err w1, Open E w tocode fromcode = (.error err, w1) →
      Conv E fuel w input tocode fromcode =
        (.returned [] (some err), w1, [.opened tocode fromcode (some err)])) ∧
    (∀ h w1, Open E w tocode fromcode = (.ok h, w1) →
      (h.Conv E fuel w1 input).1 ≠ .running →
      (Conv E fuel w input tocode fromcode).1 = (h.Conv E fuel w1 input).1 ∧
      (Conv E fuel w input tocode fromcode).2.2 =
        Op.opened tocode fromcode none :: (h.Conv E fuel w1 input).2.2.map (Op.iconv h.pointer) ++
          [Op.closed h.pointer (h.Close E (h.Conv E fuel w1 input).2.1).1] ∧
      ((Conv E fuel w input tocode fromcode).2.2.filter Op.isClose).length = 1) := by
  constructor
  · intro err w1 hopen
    unfold Conv
    rw [hopen]
  · intro h w1 hopen hrun
    have hnone : ∀ l : List Call, (l.map (Op.iconv h.pointer)).filter Op.isClose = [] := by
      intro l
      induction l with
      | nil => rfl
      | cons a l ih => simp [List.filter_cons, Op.isClose, ih]
    unfold Conv
    rw [hopen]
    simp only
    refine ⟨trivial, trivial, ?_⟩
    simp [List.filter_cons, Op.isClose, hnone]

/-- With `deafEngine` the open fails and nothing else happens; with
`asciiEngine` on `brokenInput` the conversion fails on its second call and the
handle is closed exactly once, after that call. -/
theorem Conv_closes_once_witness :
    Conv deafEngine 1 () [104, 105] utf8 utf8 =
        (.returned [] (some EINVAL), (), [.opened utf8 utf8 (some EINVAL)]) ∧
      (Iconv.Conv asciiEngine ⟨1⟩ 5 () brokenInput).1 ≠ .running ∧
      (Conv asciiEngine 5 () brokenInput utf8 utf8).1 =
        .returned (List.replicate 513 97) (some EILSEQ) ∧
      ((Conv asciiEngine 5 () brokenInput utf8 utf8).2.2.filter Op.isClose).length = 1 := by
  have h1 := (Conv_closes_once deafEngine 1 () [104, 105] utf8 utf8).1 EINVAL () rfl
  have hrun : (Iconv.Conv asciiEngine ⟨1⟩ 5 () brokenInput).1 ≠ .running := by decide
  have h2 := (Conv_closes_once asciiEngine 5 () brokenInput utf8 utf8).2 ⟨1⟩ () rfl hrun
  refine ⟨h1, hrun, ?_, h2.2.2⟩
  rw [h2.1]
  decide

/-- C9 (as stated, refuted): `greedyEngine` consumes exactly one byte in every
call and reports no error, so it meets the condition of the claim, and on the
one-byte input `h` the method `(*Iconv).Conv` returns neither a result nor an
error: its single call reports 513 bytes produced into the 512-byte buffer (it
leaves `2^64 - 1` in `outbytes`) and the slice
`outbuf[:len(outbuf)-int(outbytes)]` panics. -/
theorem Conv_terminates_counterexample :
    (∀ w cd view n, 0 < n →
        ((greedyEngine.iconv w cd view n bufSize).err = none ∨
          (greedyEngine.iconv w cd view n bufSize).err = some E2BIG) →
        (greedyEngine.iconv w cd view n bufSize).inbytes < n) ∧
      (Iconv.Conv greedyEngine ⟨1⟩ 1 () [104]).1 = .panicked ∧
      ¬ ∃ r e, (Iconv.Conv greedyEngine ⟨1⟩ 1 () [104]).1 = .returned r e := by
  have hp : (Iconv.Conv greedyEngine ⟨1⟩ 1 () [104]).1 = .panicked := by decide
  refine ⟨?_, hp, ?_⟩
  · intro w cd view n hn _
    show n - 1 < n
    omega
  · rintro ⟨r, e, h⟩
    rw [hp] at h
    exact Outcome.noConfusion h

/-- C9 (amended): for every input and every engine such that each call
returning no error or `E2BIG` leaves in `inbytes` less than the remaining count
it was given (it consumes at least one byte and at most the remaining count),
`(*Iconv).Conv` run with fuel for `len(input)` engine calls or more is never cut
short: it stops after at most `len(input)` engine calls and never loops forever
on an `E2BIG` outcome; and when no call produces more than the output capacity
(none leaves in `outbytes` more than the capacity it was given), it returns a
result together with a nil or non-nil error. -/
theorem Conv_terminates (E : Engine σ) (cd : Iconv) (fuel : Nat) (w : σ) (input : List Byte)
    (hprog : ∀ w cd view n, 0 < n →
      ((E.iconv w cd view n bufSize).err = none ∨
        (E.iconv w cd view n bufSize).err = some E2BIG) →
      (E.iconv w cd view n bufSize).inbytes < n)
    (hfuel : input.length ≤ fuel) :
    (Iconv.Conv E cd fuel w input).1 ≠ .running ∧
      (Iconv.Conv E cd fuel w input).2.2.length ≤ input.length ∧
      ((∀ c ∈ (Iconv.Conv E cd fuel w input).2.2, c.outbytesAfter ≤ c.outbytes) →
        ∃ r e, (Iconv.Conv E cd fuel w input).1 = .returned r e) := by
  unfold Iconv.Conv Iconv.ConvSized
  by_cases h0 : input.length = 0
  · rw [if_pos h0]
    exact ⟨by simp, by simp, fun _ => ⟨[], none, rfl⟩⟩
  · rw [if_neg h0]
    exact convLoop_terminates E cd.pointer input bufSize (by decide) hprog fuel w 0 input.length []
      (List.replicate bufSize 0) (List.length_replicate _ _) hfuel (le_refl _)

/-- The identity engine on `longInput` with fuel for 1025 calls: the run ends
after at most 1025 calls and returns. -/
theorem Conv_terminates_witness :
    (∀ w cd view n, 0 < n →
        ((identityEngine.iconv w cd view n bufSize).err = none ∨
          (identityEngine.iconv w cd view n bufSize).err = some E2BIG) →
        (identityEngine.iconv w cd view n bufSize).inbytes < n) ∧
      longInput.length ≤ 1025 ∧
      (Iconv.Conv identityEngine ⟨1⟩ 1025 () longInput).1 ≠ .running ∧
      (Iconv.Conv identityEngine ⟨1⟩ 1025 () longInput).2.2.length ≤ longInput.length := by
  have hprog : ∀ w cd view n, 0 < n →
      ((identityEngine.iconv w cd view n bufSize).err = none ∨
        (identityEngine.iconv w cd view n bufSize).err = some E2BIG) →
      (identityEngine.iconv w cd view n bufSize).inbytes < n := by
    intro w cd view n hn _
    show n - min n bufSize < n
    have : 0 < min n bufSize := lt_min hn (by decide)
    omega
  have hlen : longInput.length ≤ 1025 := by decide
  have h := Conv_terminates identityEngine ⟨1⟩ 1025 () longInput hprog hlen
  exact ⟨hprog, hlen, h.1, h.2.1⟩

/-- C10: for every input and every engine that never leaves in `inbytes` more
than the remaining count it was given and never leaves in `outbytes` more than
the capacity it was given (it never produces more than the capacity),
`(*Iconv).Conv` never panics, and for every engine call of the loop: the region
handed to the engine (offset of the cursor plus remaining count) ends at or
before `len(input)`; the slice `outbuf[:len(outbuf)-outbytes]` appended to the
accumulator has a bound between 0 and `len(outbuf)`; and when input remains
after the call, the index `inbytes_orig-inbytes` used to re-point the cursor is
strictly less than `len(input)`. -/
theorem Conv_in_bounds (E : Engine σ) (cd : Iconv) (fuel : Nat) (w : σ) (input : List Byte)
    (hin : ∀ w cd view n cap, (E.iconv w cd view n cap).inbytes ≤ n)
    (hout : ∀ w cd view n cap, (E.iconv w cd view n cap).outbytes ≤ cap) :
    (Iconv.Conv E cd fuel w input).1 ≠ .panicked ∧
      ∀ c ∈ (Iconv.Conv E cd fuel w input).2.2,
        c.off + c.inbytes ≤ input.length ∧ c.outbytesAfter ≤ c.outbytes ∧
        c.outbytes - c.outbytesAfter ≤ c.outbuf.length ∧
        (0 < c.inbytesAfter → c.index < input.length) := by
  unfold Iconv.Conv Iconv.ConvSized
  by_cases h0 : input.length = 0
  · rw [if_pos h0]
    exact ⟨by simp, by simp⟩
  · rw [if_neg h0]
    refine convLoop_bounds E cd.pointer input hin hout fuel w 0 input.length []
      (List.replicate bufSize 0) ?_ (by omega)
    rw [List.length_replicate]
    decide

/-- The identity engine keeps both counts within what it was given; on
`longInput` no call of the run leaves the buffers. -/
theorem Conv_in_bounds_witness :
    (∀ w cd view n cap, (identityEngine.iconv w cd view n cap).inbytes ≤ n) ∧
      (∀ w cd view n cap, (identityEngine.iconv w cd view n cap).outbytes ≤ cap) ∧
      (Iconv.Conv identityEngine ⟨1⟩ 3 () longInput).2.2.length = 3 ∧
      (Iconv.Conv identityEngine ⟨1⟩ 3 () longInput).1 ≠ .panicked ∧
      ∀ c ∈ (Iconv.Conv identityEngine ⟨1⟩ 3 () longInput).2.2,
        c.off + c.inbytes ≤ longInput.length ∧ c.outbytesAfter ≤ c.outbytes ∧
        c.outbytes - c.outbytesAfter ≤ c.outbuf.length ∧
        (0 < c.inbytesAfter → c.index < longInput.length) := by
  have hin : ∀ w cd view n cap, (identityEngine.iconv w cd view n cap).inbytes ≤ n := by
    intro w cd view n cap
    simp [identityEngine]
  have hout : ∀ w cd view n cap, (identityEngine.iconv w cd view n cap).outbytes ≤ cap := by
    intro w cd view n cap
    simp [identityEngine]
  have h := Conv_in_bounds identityEngine ⟨1⟩ 3 () longInput hin hout
  exact ⟨hin, hout, by decide, h.1, h.2⟩

end Claims

end GoIconv
